import Mathlib

/-!
Verification of the fslash sequence module (fslash/collections/seq.py).

The module is a set of curried combinators over Python iterables.  We give a
shallow embedding: a source sequence is denoted by a `PySource`, whose
observable behaviour is the indexed stream of elements it yields
(`PySource.nth`).  Finite eager combinators are embedded as functions on
`List`; fallible combinators return `Except PyError`.
-/

namespace Fslash

/-- Errors raised by the module: `ValueError` (the error the spec groups under
the name EmptySequence) and `TypeError` (raised by `reversed` on a
non-sequence). -/
inductive PyError where
  | valueError (msg : String)
  | typeError (msg : String)
deriving Repr, DecidableEq

/-- The value of `sys.maxsize` on a 64-bit CPython build: `2 ^ 63 - 1`. -/
def sysMaxsize : Nat := 2 ^ 63 - 1

/-- A source sequence, as the combinators see it.  `list` is a Python list
(supports `reversed`), `generator` a finite single-pass generator,
`infiniteGen` a generator yielding `f 0, f 1, ...` for indices below `bound`,
and `seq` the `Seq` wrapper class, whose `__iter__` just iterates the wrapped
iterable. -/
inductive PySource (α : Type) where
  | list (xs : List α)
  | generator (xs : List α)
  | infiniteGen (f : Nat → α) (bound : Nat)
  | seq (s : PySource α)

/-- The element a source yields at position `i` (`none` once exhausted).
This is the observable behaviour of iterating the source. -/
def PySource.nth : PySource α → Nat → Option α
  | .list xs, i => xs.get? i
  | .generator xs, i => xs.get? i
  | .infiniteGen f bound, i => if i < bound then some (f i) else none
  | .seq s, i => s.nth i

/-- Pull up to `k` elements from producer `p`, starting at position `i`. -/
def takeFrom (p : Nat → Option α) : Nat → Nat → List α
  | _, 0 => []
  | i, k + 1 =>
    match p i with
    | none => []
    | some x => x :: takeFrom p (i + 1) k

/-- The list of the first `k` elements a source yields. -/
def PySource.take (s : PySource α) (k : Nat) : List α := takeFrom s.nth 0 k

/-- Embedding of `head`: the `for value in source: return value` loop pulls
the first element only; the `else` branch raises
`ValueError("Sequence contains no elements")` when the source is exhausted at
once. -/
def head (source : PySource α) : Except PyError α :=
  match source.nth 0 with
  | some x => .ok x
  | none => .error (.valueError "Sequence contains no elements")

/-- Embedding of `init_infinite`: `for i in range(sys.maxsize): yield
initializer(i)`, a generator yielding `initializer i` for every
`i < sys.maxsize`. -/
def init_infinite (initializer : Nat → α) : PySource α :=
  .infiniteGen initializer sysMaxsize

/-- Embedding of the builtin `reversed(source)`: a list reverses; a generator,
an infinite generator and the `Seq` wrapper (which defines neither
`__reversed__` nor the sequence protocol) raise a `TypeError`. -/
def pyReversed : PySource α → Except PyError (List α)
  | .list xs => .ok xs.reverse
  | .generator _ => .error (.typeError "argument to reversed() must be a sequence")
  | .infiniteGen _ _ => .error (.typeError "argument to reversed() must be a sequence")
  | .seq _ => .error (.typeError "argument to reversed() must be a sequence")

/-- Embedding of `fold_back`: the inner `_fold_back` computes
`functools.reduce(lambda x, y: folder(y, x), reversed(source), state)`. -/
def fold_back (folder : α → σ → σ) (source : PySource α) (state : σ) :
    Except PyError σ :=
  (pyReversed source).map fun ys => ys.foldl (fun x y => folder y x) state

/-- Embedding of `itertools.accumulate(source, scanner, initial=state)`: yields
`state` first, then each successive application of `scanner`. -/
def accumulate (scanner : σ → α → σ) : List α → σ → List σ
  | [], state => [state]
  | x :: xs, state => state :: accumulate scanner xs (scanner state x)

/-- Embedding of `scan`, which returns `itertools.accumulate(source, scanner,
initial=state)`. -/
def scan (scanner : σ → α → σ) (state : σ) (source : List α) : List σ :=
  accumulate scanner source state

/-- Embedding of `zip` / `builtins.zip`: pairs elements positionally and stops
as soon as either input is exhausted. -/
def zip : List α → List β → List (α × β)
  | x :: xs, y :: ys => (x, y) :: zip xs ys
  | _, _ => []

/-- Denotation of the generator expression `(mapper(x) for x in source)` on a
finite source. -/
def map (mapper : α → β) : List α → List β
  | [] => []
  | x :: xs => mapper x :: map mapper xs

/-- Denotation of the generator expression `(mapper(x) for x in source)` on an
arbitrary producer: element `i` of the output is `mapper` applied to element
`i` of the source, computed only when position `i` is pulled. -/
def mapP (mapper : α → β) (p : Nat → Option α) : Nat → Option β :=
  fun i => Option.map mapper (p i)

/-- Embedding of `builtins.max` on a finite iterable, with the duck-typed
`__lt__` comparison passed explicitly as `lt`: keeps the current result and
replaces it only when a later candidate compares strictly greater, so the
first of several maximal elements wins; raises `ValueError` on an empty
iterable. -/
def builtinsMax (lt : α → α → Bool) : List α → Except PyError α
  | [] => .error (.valueError "max() arg is an empty sequence")
  | x :: t => .ok (t.foldl (fun acc y => if lt acc y then y else acc) x)

/-- Embedding of `builtins.min`: replaces the current result only when a later
candidate compares strictly smaller, so the first of several minimal elements
wins; raises `ValueError` on an empty iterable. -/
def builtinsMin (lt : α → α → Bool) : List α → Except PyError α
  | [] => .error (.valueError "min() arg is an empty sequence")
  | x :: t => .ok (t.foldl (fun acc y => if lt y acc then y else acc) x)

/-- Embedding of `max`, which returns `builtins.max(source)`. -/
def max (lt : α → α → Bool) (source : List α) : Except PyError α :=
  builtinsMax lt source

/-- Embedding of `min`, which returns `builtins.min(source)`. -/
def min (lt : α → α → Bool) (source : List α) : Except PyError α :=
  builtinsMin lt source

/-- Embedding of `max_by`: `builtins.max(projection(x) for x in source)`,
the maximum of the projected values, compared by the projected values own
`__lt__`. -/
def max_by (projection : α → β) (lt : β → β → Bool) (source : List α) :
    Except PyError β :=
  builtinsMax lt (List.map projection source)

/-- Embedding of `min_by`: `builtins.min(projection(x) for x in source)`. -/
def min_by (projection : α → β) (lt : β → β → Bool) (source : List α) :
    Except PyError β :=
  builtinsMin lt (List.map projection source)

/-- Embedding of `of`: wraps the iterable in a `Seq` without copying it. -/
def of (value : PySource α) : PySource α := .seq value

/-- Modelled from the spec: the pipe primitive lives in `fslash/core`, which is
not part of this module; section 4.1 gives its contract as
`pipe(value, f1, ..., fn) -> fn(...f2(f1(value))...)`, zero functions
returning the value unchanged.  We model the chain of unary functions as a
list of endofunctions applied left to right. -/
def pipe (value : α) (fns : List (α → α)) : α :=
  fns.foldl (fun v f => f v) value

/-! ### Helper lemmas -/

theorem accumulate_length (scanner : σ → α → σ) :
    ∀ (xs : List α) (state : σ), (accumulate scanner xs state).length = xs.length + 1 := by
  intro xs
  induction xs with
  | nil => intro state; rfl
  | cons x xs ih => intro state; simp [accumulate, ih]

theorem accumulate_get (scanner : σ → α → σ) :
    ∀ (xs : List α) (state : σ) (i : Nat),
      (accumulate scanner xs state).get? i =
        if i ≤ xs.length then some ((xs.take i).foldl scanner state) else none := by
  intro xs
  induction xs with
  | nil =>
    intro state i
    cases i <;> simp [accumulate]
  | cons x xs ih =>
    intro state i
    cases i with
    | zero => simp [accumulate]
    | succ n =>
      simpa [accumulate, Nat.succ_le_succ_iff, List.get?_eq_getElem?] using
        ih (scanner state x) n

/-! ### C1, C3, C4, C10 -/

/-- C1: `head` returns the first element of the source, its result depends
only on the first element (no evaluation past it, so it terminates on
infinite sources, with `head (init_infinite f) = f 0`), and it raises the
empty-sequence `ValueError` exactly when the source yields no elements. -/
theorem head_first_element_only (s : PySource α) (f : Nat → α) :
    (∀ x, head s = .ok x ↔ s.nth 0 = some x) ∧
    (head s = .error (.valueError "Sequence contains no elements") ↔ s.nth 0 = none) ∧
    head (init_infinite f) = .ok (f 0) ∧
    head s = head (.list (s.take 1)) := by
  refine ⟨?_, ?_, ?_, ?_⟩
  · intro x
    cases h : s.nth 0 <;> simp [head, h]
  · cases h : s.nth 0 <;> simp [head, h]
  · have h0 : 0 < sysMaxsize := by decide
    simp [head, init_infinite, PySource.nth, h0]
  · cases h : s.nth 0 <;>
      simp [head, PySource.take, takeFrom, h, PySource.nth]

/-- C3: `fold_back folder source state` is the right-to-left reduction
`folder e0 (folder e1 (... (folder eN state)))` over a materialized (list)
source, and in particular rebuilds a list when folded with cons. -/
theorem fold_back_is_foldr (folder : α → σ → σ) (xs : List α) (state : σ) :
    fold_back folder (.list xs) state = .ok (xs.foldr folder state) ∧
    fold_back (fun x acc => x :: acc) (.list [1, 2, 3]) ([] : List Nat) = .ok [1, 2, 3] := by
  constructor
  · simp [fold_back, pyReversed, Except.map, List.foldl_reverse]
  · rfl

/-- C4: `scan scanner state source` yields every intermediate accumulator
state: the output has length `N + 1`, its `i`-th element is the left fold of
the first `i` input elements (so the first emitted value is the initial
state), and `scan (+) 0 [1,2,3] = [0,1,3,6]`. -/
theorem scan_yields_intermediate_states (scanner : σ → α → σ) (state : σ) (xs : List α) :
    (scan scanner state xs).length = xs.length + 1 ∧
    (∀ i, (scan scanner state xs).get? i =
      if i ≤ xs.length then some ((xs.take i).foldl scanner state) else none) ∧
    scan (fun a b => a + b) (0 : Nat) [1, 2, 3] = [0, 1, 3, 6] := by
  refine ⟨accumulate_length scanner xs state, fun i => accumulate_get scanner xs state i, rfl⟩

/-- C10: `fold_back` does not buffer: on a single-pass generator source,
`reversed(source)` raises a `TypeError`, so `fold_back` fails there, while it
succeeds on any list source. -/
theorem fold_back_needs_reversed (folder : α → σ → σ) (xs ys : List α) (state : σ) :
    fold_back folder (.generator xs) state =
      .error (.typeError "argument to reversed() must be a sequence") ∧
    ∃ r, fold_back folder (.list ys) state = .ok r := by
  exact ⟨rfl, ⟨(ys.reverse).foldl (fun x y => folder y x) state, rfl⟩⟩

theorem takeFrom_succ (p : Nat → Option α) (i k : Nat) :
    takeFrom p i (k + 1) =
      match p i with
      | none => []
      | some x => x :: takeFrom p (i + 1) k := rfl

theorem takeFrom_infiniteGen (f : Nat → α) (bound : Nat) :
    ∀ (k i : Nat), i + k ≤ bound →
      takeFrom (PySource.infiniteGen f bound).nth i k = List.map f (List.range' i k) := by
  intro k
  induction k with
  | zero => intro i _; rfl
  | succ n ih =>
    intro i h
    have hi : i < bound := by omega
    have ht : (i + 1) + n ≤ bound := by omega
    have step : (PySource.infiniteGen f bound).nth i = some (f i) := by
      simp [PySource.nth, hi]
    rw [takeFrom_succ, step]
    simp [ih (i + 1) ht, List.range'_succ]

theorem zip_length (xs : List α) :
    ∀ ys : List β, (zip xs ys).length = Nat.min xs.length ys.length := by
  induction xs with
  | nil => intro ys; cases ys <;> simp [zip]
  | cons x xs ih =>
    intro ys
    cases ys with
    | nil => simp [zip]
    | cons y ys =>
      simp [zip, ih ys, Nat.succ_min_succ]

theorem zip_get (xs : List α) :
    ∀ (ys : List β) (i : Nat),
      (zip xs ys).get? i =
        (xs.get? i).bind fun a => (ys.get? i).map fun b => (a, b) := by
  induction xs with
  | nil => intro ys i; cases ys <;> cases i <;> simp [zip]
  | cons x xs ih =>
    intro ys i
    cases ys with
    | nil => cases i <;> simp [zip]
    | cons y ys =>
      cases i with
      | zero => simp [zip]
      | succ n => simpa [zip, List.get?_eq_getElem?] using ih ys n

theorem map_length (mapper : α → β) :
    ∀ xs : List α, (map mapper xs).length = xs.length := by
  intro xs
  induction xs with
  | nil => rfl
  | cons x xs ih => simp [map, ih]

theorem map_get (mapper : α → β) :
    ∀ (xs : List α) (i : Nat),
      (map mapper xs).get? i = (xs.get? i).map mapper := by
  intro xs
  induction xs with
  | nil => intro i; cases i <;> simp [map]
  | cons x xs ih =>
    intro i
    cases i with
    | zero => simp [map]
    | succ n => simpa [map, List.get?_eq_getElem?] using ih n

theorem takeFrom_mapP (mapper : α → β) (p : Nat → Option α) :
    ∀ (k i : Nat), takeFrom (mapP mapper p) i k = map mapper (takeFrom p i k) := by
  intro k
  induction k with
  | zero => intro i; rfl
  | succ n ih =>
    intro i
    cases h : p i <;> simp [takeFrom, mapP, h, map, ih]

/-! ### C5, C6, C7, C9 -/

/-- C5: `init_infinite f` yields `f i` at every index `i` below
`sys.maxsize = 2 ^ 63 - 1` (the index is passed through unchanged, so indices
neither wrap nor fail before that practically unreachable bound), and its
first `k` elements are `f` mapped over `0, ..., k - 1`. -/
theorem init_infinite_yields_indices (f : Nat → α) (i k : Nat)
    (hi : i < sysMaxsize) (hk : k ≤ sysMaxsize) :
    (init_infinite f).nth i = some (f i) ∧
    (init_infinite f).take k = List.map f (List.range k) := by
  constructor
  · simp [init_infinite, PySource.nth, hi]
  · have h : 0 + k ≤ sysMaxsize := by omega
    simp [init_infinite, PySource.take, takeFrom_infiniteGen f sysMaxsize k 0 h,
      List.range_eq_range']

theorem init_infinite_yields_indices_witness :
    1000 < sysMaxsize ∧ 4 ≤ sysMaxsize ∧
    ((init_infinite (fun n : Nat => n * n)).nth 1000 = some 1000000 ∧
     (init_infinite (fun n : Nat => n * n)).take 4 =
       List.map (fun n : Nat => n * n) (List.range 4)) :=
  ⟨by decide, by decide,
    init_infinite_yields_indices (fun n : Nat => n * n) 1000 4 (by decide) (by decide)⟩

/-- C6: `zip` pairs elements positionally, stops at the shorter input (its
length is the minimum of the two lengths and position `i` holds `(a_i, b_i)`
exactly when both inputs have one), raises nothing, and
`zip [1,2,3] [4,5] = [(1,4),(2,5)]`. -/
theorem zip_truncates_to_shorter (xs : List α) (ys : List β) :
    (zip xs ys).length = Nat.min xs.length ys.length ∧
    (∀ i, (zip xs ys).get? i =
      (xs.get? i).bind fun a => (ys.get? i).map fun b => (a, b)) ∧
    zip [1, 2, 3] [4, 5] = [(1, 4), (2, 5)] := by
  exact ⟨zip_length xs ys, fun i => zip_get xs ys i, rfl⟩

/-- C7: `map mapper` preserves length, its `i`-th output is `mapper` applied
to the `i`-th input; on an arbitrary producer, pulling `k` elements of the
mapped sequence applies `mapper` exactly to the first `k` pulled source
elements, and pulling nothing (mere construction of the generator) applies it
to nothing. -/
theorem map_pointwise_and_lazy (mapper : α → β) (xs : List α) (p : Nat → Option α) :
    (map mapper xs).length = xs.length ∧
    (∀ i, (map mapper xs).get? i = (xs.get? i).map mapper) ∧
    (∀ k, takeFrom (mapP mapper p) 0 k = map mapper (takeFrom p 0 k)) ∧
    takeFrom (mapP mapper p) 0 0 = [] := by
  exact ⟨map_length mapper xs, map_get mapper xs,
    fun k => takeFrom_mapP mapper p k 0, rfl⟩

/-- C9: `pipe` with no functions is the identity, it applies the given unary
functions left to right (peeling the first function off, and applying the
last function to the pipe of the rest), piping through the identity preserves
every yielded element, and `of (of s)` yields exactly the elements of `s`. -/
theorem pipe_composes_and_of_roundtrip {α β : Type} (x : α) (f g : α → α)
    (fns : List (α → α)) (s : PySource β) :
    pipe x [] = x ∧
    pipe x (f :: fns) = pipe (f x) fns ∧
    pipe x (fns ++ [g]) = g (pipe x fns) ∧
    (∀ i, (pipe s [fun t => t]).nth i = s.nth i) ∧
    (∀ i, (of (of s)).nth i = s.nth i) := by
  refine ⟨rfl, rfl, ?_, fun i => rfl, fun i => rfl⟩
  simp [pipe, List.foldl_append]

theorem foldlMax_first {α β : Type} [LinearOrder β] (key : α → β) (lt : α → α → Bool)
    (hlt : ∀ a b, lt a b = true ↔ key a < key b) :
    ∀ (t : List α) (x : α),
      ∃ r pre post,
        t.foldl (fun acc y => if lt acc y then y else acc) x = r ∧
        x :: t = pre ++ r :: post ∧
        (∀ z ∈ pre, key z < key r) ∧
        (∀ z ∈ x :: t, key z ≤ key r) := by
  intro t
  induction t with
  | nil =>
    intro x
    refine ⟨x, [], [], rfl, rfl, by simp, ?_⟩
    intro z hz
    rcases List.mem_cons.mp hz with rfl | hz
    · exact le_refl _
    · simp at hz
  | cons y t ih =>
    intro x
    by_cases h : lt x y = true
    · obtain ⟨r, pre, post, hfold, hdec, hpre, hall⟩ := ih y
      have hxy : key x < key y := (hlt x y).mp h
      have hyr : key y ≤ key r := hall y (List.mem_cons_self y t)
      refine ⟨r, x :: pre, post, ?_, ?_, ?_, ?_⟩
      · rw [List.foldl_cons]
        simpa [h] using hfold
      · rw [List.cons_append, ← hdec]
      · intro z hz
        rcases List.mem_cons.mp hz with rfl | hz
        · exact lt_of_lt_of_le hxy hyr
        · exact hpre z hz
      · intro z hz
        rcases List.mem_cons.mp hz with rfl | hz
        · exact le_of_lt (lt_of_lt_of_le hxy hyr)
        · exact hall z hz
    · obtain ⟨r, pre, post, hfold, hdec, hpre, hall⟩ := ih x
      have hyx : key y ≤ key x := le_of_not_lt fun hc => h ((hlt x y).mpr hc)
      have hxr : key x ≤ key r := hall x (List.mem_cons_self x t)
      have hfold2 : (y :: t).foldl (fun acc y => if lt acc y then y else acc) x = r := by
        rw [List.foldl_cons]
        simpa [h] using hfold
      cases pre with
      | nil =>
        rw [List.nil_append] at hdec
        injection hdec with hx hpost
        refine ⟨r, [], y :: t, hfold2, by simp [hx], by simp, ?_⟩
        intro z hz
        rcases List.mem_cons.mp hz with rfl | hz
        · exact hxr
        · rcases List.mem_cons.mp hz with rfl | hz
          · exact le_trans hyx hxr
          · exact hall z (List.mem_cons_of_mem x hz)
      | cons a pre =>
        rw [List.cons_append] at hdec
        injection hdec with hxa htail
        have hxlt : key x < key r := by
          have := hpre a (List.mem_cons_self a pre)
          rwa [← hxa] at this
        refine ⟨r, x :: y :: pre, post, hfold2, ?_, ?_, ?_⟩
        · rw [List.cons_append, List.cons_append, ← htail]
        · intro z hz
          rcases List.mem_cons.mp hz with rfl | hz
          · exact hxlt
          · rcases List.mem_cons.mp hz with rfl | hz
            · exact lt_of_le_of_lt hyx hxlt
            · exact hpre z (List.mem_cons_of_mem a hz)
        · intro z hz
          rcases List.mem_cons.mp hz with rfl | hz
          · exact hxr
          · rcases List.mem_cons.mp hz with rfl | hz
            · exact le_trans hyx hxr
            · exact hall z (List.mem_cons_of_mem x hz)

theorem foldlMin_first {α β : Type} [LinearOrder β] (key : α → β) (lt : α → α → Bool)
    (hlt : ∀ a b, lt a b = true ↔ key a < key b) :
    ∀ (t : List α) (x : α),
      ∃ r pre post,
        t.foldl (fun acc y => if lt y acc then y else acc) x = r ∧
        x :: t = pre ++ r :: post ∧
        (∀ z ∈ pre, key r < key z) ∧
        (∀ z ∈ x :: t, key r ≤ key z) := by
  intro t
  induction t with
  | nil =>
    intro x
    refine ⟨x, [], [], rfl, rfl, by simp, ?_⟩
    intro z hz
    rcases List.mem_cons.mp hz with rfl | hz
    · exact le_refl _
    · simp at hz
  | cons y t ih =>
    intro x
    by_cases h : lt y x = true
    · obtain ⟨r, pre, post, hfold, hdec, hpre, hall⟩ := ih y
      have hyx : key y < key x := (hlt y x).mp h
      have hry : key r ≤ key y := hall y (List.mem_cons_self y t)
      refine ⟨r, x :: pre, post, ?_, ?_, ?_, ?_⟩
      · rw [List.foldl_cons]
        simpa [h] using hfold
      · rw [List.cons_append, ← hdec]
      · intro z hz
        rcases List.mem_cons.mp hz with rfl | hz
        · exact lt_of_le_of_lt hry hyx
        · exact hpre z hz
      · intro z hz
        rcases List.mem_cons.mp hz with rfl | hz
        · exact le_of_lt (lt_of_le_of_lt hry hyx)
        · exact hall z hz
    · obtain ⟨r, pre, post, hfold, hdec, hpre, hall⟩ := ih x
      have hxy : key x ≤ key y := le_of_not_lt fun hc => h ((hlt y x).mpr hc)
      have hrx : key r ≤ key x := hall x (List.mem_cons_self x t)
      have hfold2 : (y :: t).foldl (fun acc y => if lt y acc then y else acc) x = r := by
        rw [List.foldl_cons]
        simpa [h] using hfold
      cases pre with
      | nil =>
        rw [List.nil_append] at hdec
        injection hdec with hx hpost
        refine ⟨r, [], y :: t, hfold2, by simp [hx], by simp, ?_⟩
        intro z hz
        rcases List.mem_cons.mp hz with rfl | hz
        · exact hrx
        · rcases List.mem_cons.mp hz with rfl | hz
          · exact le_trans hrx hxy
          · exact hall z (List.mem_cons_of_mem x hz)
      | cons a pre =>
        rw [List.cons_append] at hdec
        injection hdec with hxa htail
        have hxlt : key r < key x := by
          have := hpre a (List.mem_cons_self a pre)
          rwa [← hxa] at this
        refine ⟨r, x :: y :: pre, post, hfold2, ?_, ?_, ?_⟩
        · rw [List.cons_append, List.cons_append, ← htail]
        · intro z hz
          rcases List.mem_cons.mp hz with rfl | hz
          · exact hxlt
          · rcases List.mem_cons.mp hz with rfl | hz
            · exact lt_of_lt_of_le hxlt hxy
            · exact hpre z (List.mem_cons_of_mem a hz)
        · intro z hz
          rcases List.mem_cons.mp hz with rfl | hz
          · exact hrx
          · rcases List.mem_cons.mp hz with rfl | hz
            · exact le_trans hrx hxy
            · exact hall z (List.mem_cons_of_mem x hz)

/-! ### C2, C8 -/

/-- C8: on a non-empty source, `max` (resp. `min`) returns an element whose
comparison key is greatest (resp. smallest) among all elements, and when
several elements tie it returns the first one encountered in iteration order
(every element strictly before the result compares strictly below resp. above
it); on an empty source both raise the empty-sequence `ValueError`. -/
theorem min_max_greatest_first_tie {α β : Type} [LinearOrder β] (key : α → β)
    (x : α) (t : List α) :
    (∃ r pre post,
       max (fun a b => decide (key a < key b)) (x :: t) = .ok r ∧
       x :: t = pre ++ r :: post ∧
       (∀ z ∈ pre, key z < key r) ∧
       (∀ z ∈ x :: t, key z ≤ key r)) ∧
    (∃ r pre post,
       min (fun a b => decide (key a < key b)) (x :: t) = .ok r ∧
       x :: t = pre ++ r :: post ∧
       (∀ z ∈ pre, key r < key z) ∧
       (∀ z ∈ x :: t, key r ≤ key z)) ∧
    max (fun a b => decide (key a < key b)) ([] : List α) =
      .error (.valueError "max() arg is an empty sequence") ∧
    min (fun a b => decide (key a < key b)) ([] : List α) =
      .error (.valueError "min() arg is an empty sequence") := by
  have hlt : ∀ a b, (fun a b => decide (key a < key b)) a b = true ↔ key a < key b := by
    intro a b
    simp
  refine ⟨?_, ?_, rfl, rfl⟩
  · obtain ⟨r, pre, post, hfold, hdec, hpre, hall⟩ :=
      foldlMax_first key (fun a b => decide (key a < key b)) hlt t x
    refine ⟨r, pre, post, ?_, hdec, hpre, hall⟩
    simp only [max, builtinsMax]
    exact congrArg Except.ok hfold
  · obtain ⟨r, pre, post, hfold, hdec, hpre, hall⟩ :=
      foldlMin_first key (fun a b => decide (key a < key b)) hlt t x
    refine ⟨r, pre, post, ?_, hdec, hpre, hall⟩
    simp only [min, builtinsMin]
    exact congrArg Except.ok hfold

/-- C2: on a non-empty source, `min_by projection` (resp. `max_by projection`)
returns the smallest (resp. greatest) projected value `projection element`
over all elements, a value of the projection output type rather than an
original element; in particular projecting strings through their length gives
`min_by String.length ["a", "bb", "c"] = 1`. -/
theorem min_by_max_by_return_projected_value {α β : Type} [LinearOrder β]
    (projection : α → β) (x : α) (t : List α) :
    (∃ r, min_by projection (fun a b => decide (a < b)) (x :: t) = .ok r ∧
       r ∈ List.map projection (x :: t) ∧
       ∀ y ∈ x :: t, r ≤ projection y) ∧
    (∃ r, max_by projection (fun a b => decide (a < b)) (x :: t) = .ok r ∧
       r ∈ List.map projection (x :: t) ∧
       ∀ y ∈ x :: t, projection y ≤ r) ∧
    min_by String.length (fun a b => decide (a < b)) ["a", "bb", "c"] = .ok 1 := by
  have hlt : ∀ a b : β, (fun a b => decide (a < b)) a b = true ↔ a < b := by
    intro a b
    simp
  refine ⟨?_, ?_, rfl⟩
  · obtain ⟨r, pre, post, hfold, hdec, hpre, hall⟩ :=
      foldlMin_first (fun b : β => b) (fun a b => decide (a < b)) hlt
        (List.map projection t) (projection x)
    refine ⟨r, ?_, ?_, ?_⟩
    · simp only [min_by, builtinsMin, List.map_cons]
      exact congrArg Except.ok hfold
    · rw [List.map_cons, hdec]
      exact List.mem_append_right pre (List.mem_cons_self r post)
    · intro y hy
      have hmem : projection y ∈ projection x :: List.map projection t := by
        rw [← List.map_cons]
        exact List.mem_map_of_mem projection hy
      exact hall (projection y) hmem
  · obtain ⟨r, pre, post, hfold, hdec, hpre, hall⟩ :=
      foldlMax_first (fun b : β => b) (fun a b => decide (a < b)) hlt
        (List.map projection t) (projection x)
    refine ⟨r, ?_, ?_, ?_⟩
    · simp only [max_by, builtinsMax, List.map_cons]
      exact congrArg Except.ok hfold
    · rw [List.map_cons, hdec]
      exact List.mem_append_right pre (List.mem_cons_self r post)
    · intro y hy
      have hmem : projection y ∈ projection x :: List.map projection t := by
        rw [← List.map_cons]
        exact List.mem_map_of_mem projection hy
      exact hall (projection y) hmem

end Fslash
